import Mathlib

/-!
Verification of the disrepair-analysis overlap calculator.

The development shallowly embeds `src/calculator.js` (the functions
`calculateDisrepairOverlap` and `formatDateForProcessing`) and the body of the
HTTP handler `src/api/calculate-disrepair.js` (input validation and
total-rooms resolution, after the out-of-scope CORS / method / rate-limit /
API-key middleware has passed).

Modelling conventions:
* JS strings are Lean `String`s; character-level work happens on `String.data`.
* A JS `Date` made from a date-only ISO string is UTC midnight of that day, so
  dates are modelled as day numbers (days since 1970-01-01, `Int`).  All
  comparisons, `Math.min`/`Math.max` and differences in the source scale by the
  constant 86 400 000 ms/day, so day numbers are a faithful model.
  An invalid date (`NaN` timestamp) is modelled as `none`; every comparison
  with `NaN` is false and `Math.min`/`Math.max` propagate `NaN`, which the
  `Option` combinators below reproduce.
* JS numbers in the arithmetic of the calculator are modelled as exact
  rationals (`ℚ`); `x.toFixed(1)` followed by `parseFloat` is modelled as
  rounding to one decimal place with ties toward `+∞`, which is the rounding
  rule ECMA-262 specifies for `toFixed` on the exact value.
-/

namespace Disrepair

/-- Model of `String.prototype.split(sep)` for a one-character separator,
operating on the character list of the string (`"a/b".split('/') = ["a","b"]`,
`"".split('/') = [""]`). -/
def splitOnChar (sep : Char) : List Char → List Char → List (List Char)
  | acc, [] => [acc.reverse]
  | acc, c :: cs =>
    if c = sep then acc.reverse :: splitOnChar sep [] cs
    else splitOnChar sep (c :: acc) cs

/-- Model of `s.padStart(2, '0')`: left-pad with zeros to length 2. -/
def padStart2 (s : List Char) : List Char :=
  if s.length < 2 then List.replicate (2 - s.length) '0' ++ s else s

/-- Model of the regex test `/^\d{4}-\d{2}-\d{2}$/.test(s)` used at
`src/calculator.js:115`. -/
def isIsoDateFormat (s : List Char) : Bool :=
  match s with
  | [y1, y2, y3, y4, '-', m1, m2, '-', d1, d2] =>
    y1.isDigit && y2.isDigit && y3.isDigit && y4.isDigit &&
    m1.isDigit && m2.isDigit && d1.isDigit && d2.isDigit
  | _ => false

/-- Embeds `formatDateForProcessing` (`src/calculator.js:113-130`): a string
already in `YYYY-MM-DD` form is returned unchanged; otherwise, if the string
splits on `/` into exactly three parts, it is rebuilt as
`year-month-day` with day and month left-padded to two digits; any other
string is returned as is. -/
def formatDateForProcessing (dateStr : String) : String :=
  if isIsoDateFormat dateStr.data then dateStr
  else
    match splitOnChar '/' [] dateStr.data with
    | [day, month, year] =>
      String.mk (year ++ '-' :: (padStart2 month ++ '-' :: padStart2 day))
    | _ => dateStr

/-- Numeric value of a decimal digit character. -/
def digitVal (c : Char) : Nat := c.toNat - '0'.toNat

/-- Gregorian leap-year test. -/
def isLeapYear (y : Nat) : Bool :=
  y % 4 = 0 && (y % 100 ≠ 0 || y % 400 = 0)

/-- Number of days in month `m` of year `y`. -/
def daysInMonth (y m : Nat) : Nat :=
  if m = 2 then (if isLeapYear y then 29 else 28)
  else if m = 4 || m = 6 || m = 9 || m = 11 then 30
  else 31

/-- Day number (days since 1970-01-01) of the civil date `y-m-d`, for
`y ≤ 9999` (the parser below only produces four-digit years).  The year is
shifted by 400 so that all intermediate arithmetic stays in `Nat`;
`865565 = 146097 + 719468` removes the shift and the epoch offset. -/
def daysFromCivil (y m d : Nat) : Int :=
  let yy := y + 400
  let yAdj := if m ≤ 2 then yy - 1 else yy
  let era := yAdj / 400
  let yoe := yAdj % 400
  let mp := (m + 9) % 12
  let doy := (153 * mp + 2) / 5 + (d - 1)
  let doe := yoe * 365 + yoe / 4 - yoe / 100 + doy
  (↑(era * 146097 + doe) : Int) - 865565

/-- Model of the host `new Date(s)` constructor on the strings the calculator
feeds it: a strict `YYYY-MM-DD` string denoting a real calendar date parses to
its day number; anything else is an invalid date (`none`).  (ECMA-262 parses a
date-only ISO string as UTC midnight and yields an invalid date when the
fields do not form a real calendar date; behaviour on other strings is
implementation-defined per the spec and is modelled as invalid here.) -/
def parseJsDate (s : String) : Option Int :=
  match s.data with
  | [y1, y2, y3, y4, '-', m1, m2, '-', d1, d2] =>
    if y1.isDigit && y2.isDigit && y3.isDigit && y4.isDigit &&
       m1.isDigit && m2.isDigit && d1.isDigit && d2.isDigit then
      let y := 1000 * digitVal y1 + 100 * digitVal y2 + 10 * digitVal y3 + digitVal y4
      let m := 10 * digitVal m1 + digitVal m2
      let d := 10 * digitVal d1 + digitVal d2
      if 1 ≤ m ∧ m ≤ 12 ∧ 1 ≤ d ∧ d ≤ daysInMonth y m then
        some (daysFromCivil y m d)
      else none
    else none
  | _ => none

/-- Input record of the calculator: one disrepair period as given in the
request body (`roomName`, `startDate`, `endDate`, all strings). -/
structure Period where
  roomName : String
  startDate : String
  endDate : String
deriving DecidableEq, Repr

/-- A period after date processing (`src/calculator.js:22-26`): the two date
strings are normalized and parsed; `none` models an invalid `Date`. -/
structure ProcPeriod where
  roomName : String
  startDate : Option Int
  endDate : Option Int
deriving DecidableEq, Repr

/-- Embeds the per-period date conversion at `src/calculator.js:22-26`. -/
def processPeriod (p : Period) : ProcPeriod :=
  { roomName := p.roomName
    startDate := parseJsDate (formatDateForProcessing p.startDate)
    endDate := parseJsDate (formatDateForProcessing p.endDate) }

/-- Binary `Math.min` on timestamps with `NaN` propagation. -/
def jsOptMin (a b : Option Int) : Option Int :=
  match a, b with
  | some x, some y => some (min x y)
  | _, _ => none

/-- Binary `Math.max` on timestamps with `NaN` propagation. -/
def jsOptMax (a b : Option Int) : Option Int :=
  match a, b with
  | some x, some y => some (max x y)
  | _, _ => none

/-- `new Date(Math.min(...l))`: `none` for the empty spread (`Math.min()` is
`Infinity`, an invalid date) and when any element is invalid. -/
def jsMinList : List (Option Int) → Option Int
  | [] => none
  | x :: xs => xs.foldl jsOptMin x

/-- `new Date(Math.max(...l))`, dually to `jsMinList`. -/
def jsMaxList : List (Option Int) → Option Int
  | [] => none
  | x :: xs => xs.foldl jsOptMax x

/-- Embeds the timeline-building `while` loop at `src/calculator.js:33-42`:
one entry per day from `minDate` to `maxDate` inclusive.  When either bound is
an invalid date the comparison `currentDate <= maxDate` is false at once and
the loop body never runs. -/
def mkTimeline : Option Int → Option Int → List Int
  | some a, some b => (List.range (b + 1 - a).toNat).map (fun i => a + i)
  | _, _ => []

/-- The per-day membership test `day.date >= period.startDate && day.date <=
period.endDate` (`src/calculator.js:47`); comparisons with an invalid date are
false. -/
def coversDay (p : ProcPeriod) (d : Int) : Bool :=
  match p.startDate, p.endDate with
  | some s, some e => decide (s ≤ d) && decide (d ≤ e)
  | _, _ => false

/-- Embeds the counting pass at `src/calculator.js:44-51`: the number of
processed periods covering day `d`. -/
def dayRoomCount (ps : List ProcPeriod) (d : Int) : Nat :=
  ps.foldl (fun acc p => if coversDay p d then acc + 1 else acc) 0

/-- A maximal run of consecutive days sharing one room count
(`src/calculator.js:63-67`). -/
structure Segment where
  startDate : Int
  endDate : Int
  roomCount : Nat
deriving DecidableEq, Repr

/-- One step of the grouping loop at `src/calculator.js:57-71`: the state is
the list of finished groups plus the open group, and a day either opens a new
group (when the count changes or no group is open) or extends the open one. -/
def rleStep (st : List Segment × Option Segment) (day : Int × Nat) :
    List Segment × Option Segment :=
  match st.2 with
  | none => (st.1, some ⟨day.1, day.1, day.2⟩)
  | some g =>
    if g.roomCount ≠ day.2 then (st.1 ++ [g], some ⟨day.1, day.1, day.2⟩)
    else (st.1, some { g with endDate := day.1 })

/-- The grouping loop's fold over the whole timeline. -/
def rleFold (tl : List (Int × Nat)) : List Segment × Option Segment :=
  tl.foldl rleStep ([], none)

/-- Embeds the group-consecutive-equal-count step (`src/calculator.js:53-75`),
including the final push of the still-open group. -/
def rle (tl : List (Int × Nat)) : List Segment :=
  match rleFold tl with
  | (done, none) => done
  | (done, some g) => done ++ [g]

/-- Day span of a segment in weeks (`src/calculator.js:83-84`):
`((endDate - startDate in days) + 1) / 7`. -/
def segWeeks (s : Segment) : ℚ :=
  (((s.endDate - s.startDate : Int) : ℚ) + 1) / 7

/-- Embeds the update of `roomCountTotals[roomCount]`
(`src/calculator.js:86-90`): add to the entry for the key when one exists,
otherwise create it.  (The source tests truthiness of the stored value; stored
values are sums of positive week counts, so truthiness coincides with
existence.) -/
def addWeeks : List (Nat × ℚ) → Nat → ℚ → List (Nat × ℚ)
  | [], c, w => [(c, w)]
  | (k, v) :: rest, c, w =>
    if k = c then (k, v + w) :: rest else (k, v) :: addWeeks rest c w

/-- One iteration of the accumulation loop at `src/calculator.js:80-92`:
a segment with `roomCount > 0` contributes its week span to the running total
for its count; a zero-count segment contributes nothing. -/
def accumStep (t : List (Nat × ℚ)) (s : Segment) : List (Nat × ℚ) :=
  if 0 < s.roomCount then addWeeks t s.roomCount (segWeeks s) else t

/-- Embeds the accumulation loop at `src/calculator.js:80-92`. -/
def accumTotals (segs : List Segment) : List (Nat × ℚ) :=
  segs.foldl accumStep []

/-- Model of `parseFloat(x.toFixed(1))` on the exact value: round to one
decimal place, ties toward `+∞` (ECMA-262 picks the larger candidate `n`). -/
def round1 (q : ℚ) : ℚ := ((round (q * 10) : ℤ) : ℚ) / 10

/-- Output record of the calculator (`src/calculator.js:97-101`). -/
structure ResultRow where
  roomCount : Nat
  weeksInDisrepair : ℚ
  percentageOfProperty : ℚ
deriving DecidableEq, Repr

/-- Embeds the result-row construction at `src/calculator.js:95-102`. -/
def mkRow (totalRooms : Int) (kv : Nat × ℚ) : ResultRow :=
  { roomCount := kv.1
    weeksInDisrepair := round1 kv.2
    percentageOfProperty := round1 ((kv.1 : ℚ) / (totalRooms : ℚ) * 100) }

/-- Ordered insertion by `roomCount`, the comparator of
`results.sort((a, b) => a.roomCount - b.roomCount)`. -/
def insertRow (r : ResultRow) : List ResultRow → List ResultRow
  | [] => [r]
  | x :: xs => if r.roomCount ≤ x.roomCount then r :: x :: xs else x :: insertRow r xs

/-- Model of the final `sort` at `src/calculator.js:105` (row keys are
distinct, so any comparator-respecting sort yields the same list). -/
def sortRows : List ResultRow → List ResultRow
  | [] => []
  | x :: xs => insertRow x (sortRows xs)

/-- One step of building the `Set` of room names: JS `Set.add` keeps the first
occurrence. -/
def insertIfNew (seen : List String) (s : String) : List String :=
  if s ∈ seen then seen else seen ++ [s]

/-- Embeds the unique-room count (`src/calculator.js:11-17`, duplicated at
`src/api/calculate-disrepair.js:93-99`): the number of distinct room names,
skipping falsy (empty) names. -/
def uniqueRoomCount (periods : List Period) : Nat :=
  (periods.foldl
    (fun seen p => if p.roomName ≠ "" then insertIfNew seen p.roomName else seen)
    []).length

/-- Embeds the calculator's own total-rooms fallback
(`src/calculator.js:8-19`): a missing (`null`, modelled `none`) or non-positive
argument is replaced by the unique-room count. -/
def calcTotalRooms (periods : List Period) (totalRooms : Option Int) : Int :=
  match totalRooms with
  | some n => if n ≤ 0 then (uniqueRoomCount periods : Int) else n
  | none => (uniqueRoomCount periods : Int)

/-- The processed periods of a request (`src/calculator.js:22-26`). -/
def processedPeriods (periods : List Period) : List ProcPeriod :=
  periods.map processPeriod

/-- `minDate` of the request (`src/calculator.js:29`). -/
def minDateOf (periods : List Period) : Option Int :=
  jsMinList ((processedPeriods periods).map (fun p => p.startDate))

/-- `maxDate` of the request (`src/calculator.js:30`). -/
def maxDateOf (periods : List Period) : Option Int :=
  jsMaxList ((processedPeriods periods).map (fun p => p.endDate))

/-- The day-by-day timeline of the request (`src/calculator.js:33-42`). -/
def timelineOf (periods : List Period) : List Int :=
  mkTimeline (minDateOf periods) (maxDateOf periods)

/-- The timeline with its per-day room counts (`src/calculator.js:44-51`). -/
def timelineCounts (periods : List Period) : List (Int × Nat) :=
  (timelineOf periods).map (fun d => (d, dayRoomCount (processedPeriods periods) d))

/-- The segments produced by the group-consecutive-equal-count step
(`src/calculator.js:53-75`). -/
def segmentsOf (periods : List Period) : List Segment :=
  rle (timelineCounts periods)

/-- Embeds `calculateDisrepairOverlap` (`src/calculator.js:7-106`) as the
composition of the stages above. -/
def calculateDisrepairOverlap (periods : List Period) (totalRooms : Option Int) :
    List ResultRow :=
  sortRows ((accumTotals (segmentsOf periods)).map
    (mkRow (calcTotalRooms periods totalRooms)))

/-- A period as it sits in the JSON body: any of the three fields may be
missing (`none`). -/
structure RawPeriod where
  roomName : Option String
  startDate : Option String
  endDate : Option String
deriving DecidableEq, Repr

/-- The JSON request body of `POST api/calculate-disrepair`:
`periods` is `none` when missing or not an array; `totalRooms` is an arbitrary
JSON number (`none` when absent or `NaN`); `rooms` is `none` when absent or
not an array. -/
structure RequestBody where
  periods : Option (List RawPeriod)
  totalRooms : Option ℚ
  rooms : Option (List String)

/-- The handler's response as far as the claims are concerned: a 200 with the
calculator's rows, or a 400 with an error message. -/
inductive HandlerResponse where
  | ok (rows : List ResultRow)
  | badRequest (error : String)
deriving DecidableEq

/-- JS truthiness of an optional string field: present and non-empty. -/
def truthyStr : Option String → Bool
  | none => false
  | some s => s ≠ ""

/-- The per-period validation at `src/api/calculate-disrepair.js:72-78`:
all three fields truthy. -/
def rawValid (p : RawPeriod) : Bool :=
  truthyStr p.roomName && truthyStr p.startDate && truthyStr p.endDate

/-- A raw period as the calculator sees it (missing fields read back as
`undefined`; on the path where the calculator is actually invoked all fields
are present, so the defaults are never observed). -/
def toPeriod (p : RawPeriod) : Period :=
  { roomName := p.roomName.getD ""
    startDate := p.startDate.getD ""
    endDate := p.endDate.getD "" }

/-- The negated decimal exponent of a positive rational below 1: the smallest
`k` with `q * 10 ^ k ≥ 1` (equivalently the smallest `k` with
`10 ^ k ≥ ⌈1 / q⌉`). -/
def negDecExp (q : ℚ) : Nat := Nat.clog 10 (⌈1 / q⌉.toNat)

/-- The leading decimal digit of a positive rational: the first digit of the
significand of its decimal representation. -/
def leadDigit (q : ℚ) : Int :=
  if 1 ≤ q then
    let n := (⌊q⌋).toNat
    ((n / 10 ^ Nat.log 10 n : Nat) : Int)
  else
    ⌊q * 10 ^ negDecExp q⌋

/-- Model of `parseInt(x, 10)` applied to a positive JS number `x`.
`parseInt` first converts its argument with `ToString`.  Per ECMA-262,
`ToString` of a positive number uses plain positional notation exactly when
the value lies in `[10^-6, 10^21)`, and `parseInt` of that notation reads the
integer part, i.e. `⌊x⌋`.  Outside that range `ToString` yields exponential
notation `d.ddd…e±k`, of which `parseInt` reads only the digits before the
`.` or `e` — the leading digit of the significand (so `parseInt(1e-7) = 1`
and `parseInt(1.5e21) = 1`). -/
def jsParseIntPos (q : ℚ) : Int :=
  if 1 / 1000000 ≤ q ∧ q < 10 ^ 21 then ⌊q⌋ else leadDigit q

/-- Embeds the `effectiveTotalRooms` resolution at
`src/api/calculate-disrepair.js:80-100`: a supplied array's length; else a
supplied positive number is reduced to an integer by `parseInt(totalRooms,
10)`, modelled by `jsParseIntPos`; else the unique-room count of the
periods. -/
def handlerResolveTotalRooms (periods : List Period) (totalRooms : Option ℚ)
    (rooms : Option (List String)) : Int :=
  match rooms with
  | some rs => (rs.length : Int)
  | none =>
    match totalRooms with
    | some q => if 0 < q then jsParseIntPos q else (uniqueRoomCount periods : Int)
    | none => (uniqueRoomCount periods : Int)

/-- Embeds the body of the handler at `src/api/calculate-disrepair.js:62-106`,
after the out-of-scope method / CORS / rate-limit / API-key middleware has
passed: validation, total-rooms resolution, then the calculator. -/
def handler (body : RequestBody) : HandlerResponse :=
  match body.periods with
  | none => .badRequest "Invalid input - Disrepair periods required"
  | some ps =>
    if ps.isEmpty then
      .badRequest "Invalid input - Disrepair periods required"
    else if ps.all rawValid then
      let periods := ps.map toPeriod
      let e := handlerResolveTotalRooms periods body.totalRooms body.rooms
      .ok (calculateDisrepairOverlap periods (some e))
    else
      .badRequest "Invalid input - Each period must have roomName, startDate, and endDate"

/-! ### Derived notions used by the statements -/

/-- The comparison on `Option Int` induced by JS date comparison: true exactly
when both dates are valid and in order. -/
def optLe (a b : Option Int) : Bool :=
  match a, b with
  | some x, some y => decide (x ≤ y)
  | _, _ => false

/-- Whether day `d` lies in segment `s` (inclusive on both ends). -/
def segCovers (s : Segment) (d : Int) : Bool :=
  decide (s.startDate ≤ d) && decide (d ≤ s.endDate)

/-- Sum of the inclusive day spans of a list of segments. -/
def sumSpans (segs : List Segment) : Int :=
  (segs.map (fun s => s.endDate - s.startDate + 1)).sum

/-- `coversRange segs a b`: the segments tile the integer interval `[a, b]`
exactly, in order, with no gaps and no overlaps (`b + 1 = a` encodes the empty
range). -/
def coversRange : List Segment → Int → Int → Prop
  | [], a, b => b + 1 = a
  | s :: rest, a, b =>
    s.startDate = a ∧ s.startDate ≤ s.endDate ∧ s.endDate ≤ b ∧
      coversRange rest (s.endDate + 1) b

/-- The exact (unrounded) sum of week spans of the segments at count `c`. -/
def sumWeeksAt (c : Nat) (segs : List Segment) : ℚ :=
  ((segs.filter (fun s => s.roomCount = c)).map segWeeks).sum

/-- Value stored for key `c` in a totals association list (0 when absent). -/
def totalsVal : List (Nat × ℚ) → Nat → ℚ
  | [], _ => 0
  | (k, v) :: rest, c => if k = c then v else totalsVal rest c

/-- The keys of a totals association list. -/
def keysOf (t : List (Nat × ℚ)) : List Nat := t.map Prod.fst

/-- The comparator order of the final `sort`. -/
def rowLe (a b : ResultRow) : Prop := a.roomCount ≤ b.roomCount

/-- A consecutive timeline of `n` days starting at `a` with counts `f`; the
shape `mkTimeline` produces for valid bounds. -/
def consecTimeline (a : Int) (n : Nat) (f : Int → Nat) : List (Int × Nat) :=
  (List.range n).map (fun i => (a + i, f (a + i)))

/-- The total-rooms precedence of claim C4 as amended: a supplied non-empty
room list wins by its length; a supplied empty room list falls through to the
distinct-room-name count (not to `totalRooms`); otherwise a supplied positive
numeric `totalRooms` wins by its `parseInt` value (`parseInt` of the number's
decimal rendering, `jsParseIntPos`) provided that value is positive;
otherwise the count of distinct room names is used. -/
def amendedTotalRooms (periods : List Period) (totalRooms : Option ℚ)
    (rooms : Option (List String)) : Int :=
  match rooms with
  | some rs => if rs.length = 0 then (uniqueRoomCount periods : Int) else (rs.length : Int)
  | none =>
    match totalRooms with
    | some q =>
      if 0 < q ∧ 0 < jsParseIntPos q then jsParseIntPos q
      else (uniqueRoomCount periods : Int)
    | none => (uniqueRoomCount periods : Int)

/-- Concrete two-period request used by witnesses. -/
def wPeriodsA : List Period :=
  [⟨"A", "01/01/2025", "03/01/2025"⟩, ⟨"B", "02/01/2025", "05/01/2025"⟩]

/-- Concrete request containing an inverted interval (room `A` starts
2024-12-01 and ends 2024-11-01), used by the witness of claim C8. -/
def wPeriodsInv : List Period :=
  [⟨"B", "01/01/2025", "02/01/2025"⟩, ⟨"A", "01/12/2024", "01/11/2024"⟩]

/-- Concrete invalid request body (a period with no `roomName`), used by the
witness of claim C9. -/
def wBadBody : RequestBody :=
  { periods := some [{ roomName := none
                       startDate := some "01/01/2025"
                       endDate := some "02/01/2025" }]
    totalRooms := none
    rooms := none }

/-! ### Lemmas about exact range covers -/

theorem coversRange_sumSpans :
    ∀ (segs : List Segment) (a b : Int), coversRange segs a b →
      sumSpans segs = b - a + 1 := by
  intro segs
  induction segs with
  | nil =>
    intro a b h
    simp only [coversRange] at h
    simp [sumSpans]
    omega
  | cons s rest ih =>
    intro a b h
    obtain ⟨h1, h2, h3, h4⟩ := h
    have hrest := ih (s.endDate + 1) b h4
    simp only [sumSpans, List.map_cons, List.sum_cons] at *
    omega

theorem coversRange_mem_bounds :
    ∀ (segs : List Segment) (a b : Int), coversRange segs a b →
      ∀ s ∈ segs, a ≤ s.startDate ∧ s.startDate ≤ s.endDate ∧ s.endDate ≤ b := by
  intro segs
  induction segs with
  | nil => intro a b _ s hs; simp at hs
  | cons t rest ih =>
    intro a b h s hs
    obtain ⟨h1, h2, h3, h4⟩ := h
    rcases List.mem_cons.mp hs with hs | hs
    · subst hs; omega
    · have := ih (t.endDate + 1) b h4 s hs
      omega

theorem coversRange_countP_one :
    ∀ (segs : List Segment) (a b : Int), coversRange segs a b →
      ∀ d : Int, a ≤ d → d ≤ b →
        segs.countP (fun s => segCovers s d) = 1 := by
  intro segs
  induction segs with
  | nil =>
    intro a b h d hd1 hd2
    simp only [coversRange] at h
    omega
  | cons s rest ih =>
    intro a b h d hd1 hd2
    obtain ⟨h1, h2, h3, h4⟩ := h
    by_cases hcase : d ≤ s.endDate
    · have hcov : segCovers s d = true := by
        simp only [segCovers, Bool.and_eq_true, decide_eq_true_eq]
        omega
      have hrest : rest.countP (fun s => segCovers s d) = 0 := by
        rw [List.countP_eq_zero]
        intro t ht
        have hb := coversRange_mem_bounds rest (s.endDate + 1) b h4 t ht
        simp only [segCovers, Bool.and_eq_true, decide_eq_true_eq]
        push_neg
        intro hle
        omega
      rw [List.countP_cons, hrest]
      simp [hcov]
    · have hcov : segCovers s d = false := by
        simp only [segCovers, Bool.and_eq_true, decide_eq_true_eq]
        simp only [Bool.and_eq_false_iff, decide_eq_false_iff_not]
        right; omega
      have hrest := ih (s.endDate + 1) b h4 d (by omega) hd2
      rw [List.countP_cons, hrest]
      simp [hcov]

theorem coversRange_snoc_new (c : Nat) :
    ∀ (segs : List Segment) (a b : Int), coversRange segs a b →
      coversRange (segs ++ [⟨b + 1, b + 1, c⟩]) a (b + 1) := by
  intro segs
  induction segs with
  | nil =>
    intro a b h
    simp only [coversRange] at h
    subst h
    exact ⟨rfl, le_refl _, le_refl _, rfl⟩
  | cons s rest ih =>
    intro a b h
    obtain ⟨h1, h2, h3, h4⟩ := h
    exact ⟨h1, h2, by omega, ih (s.endDate + 1) b h4⟩

theorem coversRange_snoc_extend :
    ∀ (segs : List Segment) (g : Segment) (a b : Int),
      coversRange (segs ++ [g]) a b → g.endDate = b →
      coversRange (segs ++ [{ g with endDate := b + 1 }]) a (b + 1) := by
  intro segs
  induction segs with
  | nil =>
    intro g a b h hend
    obtain ⟨h1, h2, h3, _⟩ := h
    refine ⟨h1, ?_, le_refl _, rfl⟩
    show g.startDate ≤ b + 1
    omega
  | cons s rest ih =>
    intro g a b h hend
    obtain ⟨h1, h2, h3, h4⟩ := h
    refine ⟨h1, h2, by omega, ih g (s.endDate + 1) b h4 hend⟩

/-! ### The grouping loop produces an exact cover of the timeline -/

theorem consecTimeline_succ (a : Int) (n : Nat) (f : Int → Nat) :
    consecTimeline a (n + 1) f = consecTimeline a n f ++ [(a + n, f (a + n))] := by
  simp [consecTimeline, List.range_succ]

theorem rleFold_consec (f : Int → Nat) (a : Int) :
    ∀ n : Nat, 0 < n →
      ∃ done g, rleFold (consecTimeline a n f) = (done, some g) ∧
        coversRange (done ++ [g]) a (a + n - 1) ∧ g.endDate = a + n - 1 := by
  intro n
  induction n with
  | zero => intro h; omega
  | succ n ih =>
    intro _
    by_cases hn : 0 < n
    · obtain ⟨done, g, hfold, hcov, hend⟩ := ih hn
      rw [consecTimeline_succ]
      unfold rleFold at hfold ⊢
      rw [List.foldl_append, hfold]
      have hab : a + (↑(n + 1) : Int) - 1 = (a + n - 1) + 1 := by push_cast; ring
      have harg : (a + (n : Int) - 1) + 1 = a + n := by omega
      by_cases hc : g.roomCount ≠ f (a + n)
      · refine ⟨done ++ [g], ⟨a + n, a + n, f (a + n)⟩, ?_, ?_, ?_⟩
        · simp [List.foldl_cons, List.foldl_nil, rleStep, hc]
        · rw [hab, harg]
          have := coversRange_snoc_new (f (a + n)) (done ++ [g]) a (a + n - 1) hcov
          rw [harg] at this
          exact this
        · show (a : Int) + n = a + (↑(n + 1) : Int) - 1
          push_cast; ring
      · push_neg at hc
        refine ⟨done, { g with endDate := a + n }, ?_, ?_, ?_⟩
        · simp [List.foldl_cons, List.foldl_nil, rleStep, hc]
        · rw [hab, harg]
          have := coversRange_snoc_extend done g a (a + n - 1) hcov hend
          rw [harg] at this
          exact this
        · show (a : Int) + n = a + (↑(n + 1) : Int) - 1
          push_cast; ring
    · have hn0 : n = 0 := by omega
      subst hn0
      refine ⟨[], ⟨a, a, f a⟩, ?_, ?_, ?_⟩
      · show rleFold (consecTimeline a 1 f) = _
        simp [consecTimeline, rleFold, rleStep, List.range_succ]
      · refine ⟨by simp, by simp, ?_, ?_⟩
        · show (a : Int) ≤ a + (↑(0 + 1 : Nat) : Int) - 1
          push_cast; omega
        · show (a : Int) + (↑(0 + 1 : Nat) : Int) - 1 + 1 = a + 1
          push_cast; ring
      · show (a : Int) = a + (↑(0 + 1 : Nat) : Int) - 1
        push_cast; ring

theorem rle_consec_covers (f : Int → Nat) (a : Int) (n : Nat) (hn : 0 < n) :
    coversRange (rle (consecTimeline a n f)) a (a + n - 1) := by
  obtain ⟨done, g, hfold, hcov, _⟩ := rleFold_consec f a n hn
  unfold rle
  rw [hfold]
  exact hcov

/-- Every segment count produced by the grouping loop is one of the per-day
counts fed to it. -/
theorem rleFold_state_prop (P : Nat → Prop) :
    ∀ (tl : List (Int × Nat)) (st : List Segment × Option Segment),
      (∀ s ∈ st.1, P s.roomCount) →
      (∀ g, st.2 = some g → P g.roomCount) →
      (∀ x ∈ tl, P x.2) →
      (∀ s ∈ (tl.foldl rleStep st).1, P s.roomCount) ∧
        (∀ g, (tl.foldl rleStep st).2 = some g → P g.roomCount) := by
  intro tl
  induction tl with
  | nil => intro st h1 h2 _; exact ⟨h1, h2⟩
  | cons x rest ih =>
    intro st h1 h2 h3
    rw [List.foldl_cons]
    have hx : P x.2 := h3 x (List.mem_cons_self x rest)
    have hrest : ∀ y ∈ rest, P y.2 := fun y hy => h3 y (List.mem_cons_of_mem x hy)
    apply ih
    · intro s hs
      unfold rleStep at hs
      cases hst : st.2 with
      | none => rw [hst] at hs; exact h1 s hs
      | some g =>
        rw [hst] at hs
        by_cases hc : g.roomCount ≠ x.2
        · simp only [if_pos hc] at hs
          rcases List.mem_append.mp hs with hs | hs
          · exact h1 s hs
          · rcases List.mem_singleton.mp hs with rfl
            exact h2 s hst
        · simp only [if_neg hc] at hs
          exact h1 s hs
    · intro g hg
      unfold rleStep at hg
      cases hst : st.2 with
      | none =>
        rw [hst] at hg
        simp only [Option.some.injEq] at hg
        rw [← hg]
        exact hx
      | some g0 =>
        rw [hst] at hg
        by_cases hc : g0.roomCount ≠ x.2
        · simp only [if_pos hc, Option.some.injEq] at hg
          rw [← hg]
          exact hx
        · simp only [if_neg hc, Option.some.injEq] at hg
          rw [← hg]
          exact h2 g0 hst
    · exact hrest

theorem rle_counts_prop (P : Nat → Prop) (tl : List (Int × Nat))
    (h : ∀ x ∈ tl, P x.2) : ∀ s ∈ rle tl, P s.roomCount := by
  have hmain := rleFold_state_prop P tl ([], none) (by simp) (by simp) h
  intro s hs
  unfold rle at hs
  cases hfold : rleFold tl with
  | mk done cur =>
    have hfold2 : tl.foldl rleStep ([], none) = (done, cur) := hfold
    rw [hfold2] at hmain
    rw [hfold] at hs
    cases cur with
    | none => exact hmain.1 s hs
    | some g =>
      rcases List.mem_append.mp hs with hs2 | hs2
      · exact hmain.1 s hs2
      · rw [List.mem_singleton] at hs2
        subst hs2
        exact hmain.2 s rfl

/-! ### Lemmas about the totals accumulation -/

theorem keysOf_cons (kv : Nat × ℚ) (t : List (Nat × ℚ)) :
    keysOf (kv :: t) = kv.1 :: keysOf t := rfl

theorem totalsVal_addWeeks :
    ∀ (t : List (Nat × ℚ)) (c : Nat) (w : ℚ) (c' : Nat),
      totalsVal (addWeeks t c w) c' = totalsVal t c' + (if c' = c then w else 0) := by
  intro t
  induction t with
  | nil =>
    intro c w c'
    simp only [addWeeks, totalsVal]
    by_cases h : c = c'
    · subst h; simp
    · rw [if_neg h, if_neg (fun hh => h hh.symm)]; simp
  | cons kv rest ih =>
    intro c w c'
    obtain ⟨k, v⟩ := kv
    by_cases hk : k = c
    · subst hk
      simp only [addWeeks, if_pos rfl, totalsVal]
      by_cases h2 : k = c'
      · subst h2; simp
      · rw [if_neg h2, if_neg h2, if_neg (fun hh => h2 hh.symm)]; simp
    · simp only [addWeeks, if_neg hk, totalsVal]
      by_cases h2 : k = c'
      · subst h2
        rw [if_pos rfl, if_pos rfl, if_neg hk]
        simp
      · rw [if_neg h2, if_neg h2, ih]

theorem keysOf_addWeeks :
    ∀ (t : List (Nat × ℚ)) (c : Nat) (w : ℚ),
      keysOf (addWeeks t c w) =
        if c ∈ keysOf t then keysOf t else keysOf t ++ [c] := by
  intro t
  induction t with
  | nil => intro c w; simp [addWeeks, keysOf]
  | cons kv rest ih =>
    intro c w
    obtain ⟨k, v⟩ := kv
    by_cases hk : k = c
    · subst hk
      show keysOf (if k = k then (k, v + w) :: rest else (k, v) :: addWeeks rest k w) = _
      rw [if_pos rfl]
      show k :: keysOf rest = _
      rw [show keysOf ((k, v) :: rest) = k :: keysOf rest from rfl]
      rw [if_pos (List.mem_cons_self k (keysOf rest))]
    · show keysOf (if k = c then (k, v + w) :: rest else (k, v) :: addWeeks rest c w) = _
      rw [if_neg hk]
      show k :: keysOf (addWeeks rest c w) = _
      rw [show keysOf ((k, v) :: rest) = k :: keysOf rest from rfl, ih]
      have hmemiff : c ∈ k :: keysOf rest ↔ c ∈ keysOf rest := by
        constructor
        · intro h
          rcases List.mem_cons.mp h with h | h
          · exact absurd h.symm hk
          · exact h
        · exact List.mem_cons_of_mem k
      by_cases hm : c ∈ keysOf rest
      · rw [if_pos hm, if_pos (hmemiff.mpr hm)]
      · rw [if_neg hm, if_neg (fun hh => hm (hmemiff.mp hh))]
        simp

theorem keysOf_addWeeks_nodup (t : List (Nat × ℚ)) (c : Nat) (w : ℚ)
    (h : (keysOf t).Nodup) : (keysOf (addWeeks t c w)).Nodup := by
  rw [keysOf_addWeeks]
  by_cases hm : c ∈ keysOf t
  · rwa [if_pos hm]
  · rw [if_neg hm]
    rw [List.nodup_append]
    exact ⟨h, List.nodup_singleton c, by simpa using hm⟩

theorem mem_keysOf_addWeeks (t : List (Nat × ℚ)) (c : Nat) (w : ℚ) (c' : Nat) :
    c' ∈ keysOf (addWeeks t c w) ↔ c' ∈ keysOf t ∨ c' = c := by
  rw [keysOf_addWeeks]
  by_cases hm : c ∈ keysOf t
  · rw [if_pos hm]
    constructor
    · exact Or.inl
    · rintro (h | rfl)
      · exact h
      · exact hm
  · rw [if_neg hm]
    simp [List.mem_append]

theorem totalsVal_foldl_accumStep :
    ∀ (segs : List Segment) (t : List (Nat × ℚ)) (c : Nat), 0 < c →
      totalsVal (segs.foldl accumStep t) c = totalsVal t c + sumWeeksAt c segs := by
  intro segs
  induction segs with
  | nil => intro t c _; simp [sumWeeksAt]
  | cons s rest ih =>
    intro t c hc
    rw [List.foldl_cons, ih _ c hc]
    have hsum : sumWeeksAt c (s :: rest) =
        (if s.roomCount = c then segWeeks s else 0) + sumWeeksAt c rest := by
      simp only [sumWeeksAt, List.filter_cons]
      by_cases h : s.roomCount = c
      · simp [h]
      · simp [h]
    have hstep : totalsVal (accumStep t s) c =
        totalsVal t c + (if s.roomCount = c then segWeeks s else 0) := by
      unfold accumStep
      by_cases hpos : 0 < s.roomCount
      · rw [if_pos hpos, totalsVal_addWeeks]
        congr 1
        by_cases h : s.roomCount = c
        · simp [h]
        · rw [if_neg (fun hh => h hh.symm), if_neg h]
      · rw [if_neg hpos]
        rw [if_neg (by omega : ¬s.roomCount = c)]
        simp
    rw [hsum, hstep]
    ring

theorem mem_keysOf_foldl_accumStep :
    ∀ (segs : List Segment) (t : List (Nat × ℚ)) (c : Nat),
      c ∈ keysOf (segs.foldl accumStep t) ↔
        c ∈ keysOf t ∨ (0 < c ∧ ∃ s ∈ segs, s.roomCount = c) := by
  intro segs
  induction segs with
  | nil => intro t c; simp
  | cons s rest ih =>
    intro t c
    rw [List.foldl_cons, ih]
    unfold accumStep
    by_cases hpos : 0 < s.roomCount
    · rw [if_pos hpos, mem_keysOf_addWeeks]
      constructor
      · rintro ((h | rfl) | h)
        · exact Or.inl h
        · exact Or.inr ⟨hpos, s, List.mem_cons_self s rest, rfl⟩
        · obtain ⟨hc, s2, hs2, hc2⟩ := h
          exact Or.inr ⟨hc, s2, List.mem_cons_of_mem s hs2, hc2⟩
      · rintro (h | ⟨hc, s2, hs2, hc2⟩)
        · exact Or.inl (Or.inl h)
        · rcases List.mem_cons.mp hs2 with rfl | hmem
          · exact Or.inl (Or.inr hc2.symm)
          · exact Or.inr ⟨hc, s2, hmem, hc2⟩
    · rw [if_neg hpos]
      constructor
      · rintro (h | h)
        · exact Or.inl h
        · obtain ⟨hc, s2, hs2, hc2⟩ := h
          exact Or.inr ⟨hc, s2, List.mem_cons_of_mem s hs2, hc2⟩
      · rintro (h | ⟨hc, s2, hs2, hc2⟩)
        · exact Or.inl h
        · rcases List.mem_cons.mp hs2 with rfl | hmem
          · omega
          · exact Or.inr ⟨hc, s2, hmem, hc2⟩

theorem keysOf_foldl_accumStep_nodup :
    ∀ (segs : List Segment) (t : List (Nat × ℚ)),
      (keysOf t).Nodup → (keysOf (segs.foldl accumStep t)).Nodup := by
  intro segs
  induction segs with
  | nil => intro t h; exact h
  | cons s rest ih =>
    intro t h
    rw [List.foldl_cons]
    apply ih
    unfold accumStep
    by_cases hpos : 0 < s.roomCount
    · rw [if_pos hpos]; exact keysOf_addWeeks_nodup _ _ _ h
    · rwa [if_neg hpos]

theorem totalsVal_accumTotals (segs : List Segment) (c : Nat) (hc : 0 < c) :
    totalsVal (accumTotals segs) c = sumWeeksAt c segs := by
  unfold accumTotals
  rw [totalsVal_foldl_accumStep segs [] c hc]
  simp [totalsVal]

theorem mem_keysOf_accumTotals (segs : List Segment) (c : Nat) :
    c ∈ keysOf (accumTotals segs) ↔ 0 < c ∧ ∃ s ∈ segs, s.roomCount = c := by
  unfold accumTotals
  rw [mem_keysOf_foldl_accumStep]
  simp [keysOf]

theorem keysOf_accumTotals_nodup (segs : List Segment) :
    (keysOf (accumTotals segs)).Nodup := by
  unfold accumTotals
  exact keysOf_foldl_accumStep_nodup segs [] (by simp [keysOf])

theorem filter_key_eq :
    ∀ (t : List (Nat × ℚ)) (c : Nat), (keysOf t).Nodup → c ∈ keysOf t →
      t.filter (fun kv => kv.1 = c) = [(c, totalsVal t c)] := by
  intro t
  induction t with
  | nil => intro c _ h; simp [keysOf] at h
  | cons kv rest ih =>
    intro c hnd hmem
    obtain ⟨k, v⟩ := kv
    rw [keysOf_cons] at hnd hmem
    rw [List.nodup_cons] at hnd
    by_cases hk : k = c
    · subst hk
      have hnone : rest.filter (fun kv => kv.1 = k) = [] := by
        rw [List.filter_eq_nil_iff]
        intro a ha
        simp only [decide_eq_true_eq]
        intro hh
        apply hnd.1
        have hmm : a.1 ∈ keysOf rest := List.mem_map_of_mem Prod.fst ha
        rwa [hh] at hmm
      have hstep : ((k, v) :: rest).filter (fun kv => kv.1 = k) =
          (k, v) :: rest.filter (fun kv => kv.1 = k) := by
        simp [List.filter_cons]
      rw [hstep, hnone]
      have hval : totalsVal ((k, v) :: rest) k = v := by simp [totalsVal]
      rw [hval]
    · have hc : c ∈ keysOf rest := by
        rcases List.mem_cons.mp hmem with h | h
        · exact absurd h.symm hk
        · exact h
      have hstep : ((k, v) :: rest).filter (fun kv => kv.1 = c) =
          rest.filter (fun kv => kv.1 = c) := by
        simp [List.filter_cons, hk]
      rw [hstep, ih c hnd.2 hc]
      have hval : totalsVal ((k, v) :: rest) c = totalsVal rest c := by
        simp [totalsVal, hk]
      rw [hval]

/-! ### Lemmas about the final sort -/

theorem insertRow_perm (r : ResultRow) :
    ∀ l : List ResultRow, (insertRow r l).Perm (r :: l) := by
  intro l
  induction l with
  | nil => exact List.Perm.refl _
  | cons x xs ih =>
    unfold insertRow
    by_cases h : r.roomCount ≤ x.roomCount
    · rw [if_pos h]
    · rw [if_neg h]
      exact (ih.cons x).trans (List.Perm.swap r x xs)

theorem sortRows_perm : ∀ l : List ResultRow, (sortRows l).Perm l := by
  intro l
  induction l with
  | nil => exact List.Perm.refl _
  | cons x xs ih => exact (insertRow_perm x (sortRows xs)).trans (ih.cons x)

theorem insertRow_pairwise (r : ResultRow) :
    ∀ l : List ResultRow, List.Pairwise rowLe l →
      List.Pairwise rowLe (insertRow r l) := by
  intro l
  induction l with
  | nil => intro _; exact List.pairwise_singleton _ _
  | cons x xs ih =>
    intro hp
    rw [List.pairwise_cons] at hp
    obtain ⟨hx, hxs⟩ := hp
    unfold insertRow
    by_cases h : r.roomCount ≤ x.roomCount
    · rw [if_pos h, List.pairwise_cons]
      refine ⟨?_, List.pairwise_cons.mpr ⟨hx, hxs⟩⟩
      intro y hy
      rcases List.mem_cons.mp hy with rfl | hy2
      · exact h
      · exact le_trans h (hx y hy2)
    · rw [if_neg h, List.pairwise_cons]
      refine ⟨?_, ih hxs⟩
      intro y hy
      have hy2 : y ∈ r :: xs := ((insertRow_perm r xs).mem_iff).mp hy
      rcases List.mem_cons.mp hy2 with rfl | hy3
      · exact le_of_not_le h
      · exact hx y hy3

theorem sortRows_pairwise : ∀ l : List ResultRow, List.Pairwise rowLe (sortRows l) := by
  intro l
  induction l with
  | nil => exact List.Pairwise.nil
  | cons x xs ih => exact insertRow_pairwise x (sortRows xs) ih

/-! ### Lemmas about the min and max date folds -/

theorem foldl_jsOptMin_none : ∀ xs : List (Option Int), xs.foldl jsOptMin none = none := by
  intro xs
  induction xs with
  | nil => rfl
  | cons x rest ih =>
    rw [List.foldl_cons]
    cases x <;> exact ih

theorem foldl_jsOptMax_none : ∀ xs : List (Option Int), xs.foldl jsOptMax none = none := by
  intro xs
  induction xs with
  | nil => rfl
  | cons x rest ih =>
    rw [List.foldl_cons]
    cases x <;> exact ih

theorem foldl_jsOptMin_le :
    ∀ (xs : List (Option Int)) (acc : Option Int) (res : Int),
      xs.foldl jsOptMin acc = some res →
      (∀ v : Int, acc = some v → res ≤ v) ∧ (∀ v : Int, some v ∈ xs → res ≤ v) := by
  intro xs
  induction xs with
  | nil =>
    intro acc res h
    refine ⟨?_, by simp⟩
    intro v hv
    rw [List.foldl_nil] at h
    rw [hv] at h
    cases h
    exact le_refl _
  | cons x rest ih =>
    intro acc res h
    rw [List.foldl_cons] at h
    have hmain := ih (jsOptMin acc x) res h
    have hboth : ∃ a b : Int, acc = some a ∧ x = some b := by
      cases acc with
      | none =>
        exfalso
        have : jsOptMin none x = none := by cases x <;> rfl
        rw [this, foldl_jsOptMin_none] at h
        cases h
      | some a =>
        cases x with
        | none =>
          exfalso
          have hred : jsOptMin (some a) none = none := rfl
          rw [hred, foldl_jsOptMin_none] at h
          cases h
        | some b => exact ⟨a, b, rfl, rfl⟩
    obtain ⟨a, b, rfl, rfl⟩ := hboth
    have hmin : res ≤ min a b := hmain.1 (min a b) rfl
    constructor
    · intro v hv
      cases hv
      exact le_trans hmin (min_le_left a b)
    · intro v hv
      rcases List.mem_cons.mp hv with hv | hv
      · obtain rfl : v = b := Option.some.inj hv
        exact le_trans hmin (min_le_right a v)
      · exact hmain.2 v hv

theorem foldl_jsOptMax_ge :
    ∀ (xs : List (Option Int)) (acc : Option Int) (res : Int),
      xs.foldl jsOptMax acc = some res →
      (∀ v : Int, acc = some v → v ≤ res) ∧ (∀ v : Int, some v ∈ xs → v ≤ res) := by
  intro xs
  induction xs with
  | nil =>
    intro acc res h
    refine ⟨?_, by simp⟩
    intro v hv
    rw [List.foldl_nil] at h
    rw [hv] at h
    cases h
    exact le_refl _
  | cons x rest ih =>
    intro acc res h
    rw [List.foldl_cons] at h
    have hmain := ih (jsOptMax acc x) res h
    have hboth : ∃ a b : Int, acc = some a ∧ x = some b := by
      cases acc with
      | none =>
        exfalso
        have : jsOptMax none x = none := by cases x <;> rfl
        rw [this, foldl_jsOptMax_none] at h
        cases h
      | some a =>
        cases x with
        | none =>
          exfalso
          have hred : jsOptMax (some a) none = none := rfl
          rw [hred, foldl_jsOptMax_none] at h
          cases h
        | some b => exact ⟨a, b, rfl, rfl⟩
    obtain ⟨a, b, rfl, rfl⟩ := hboth
    have hmax : max a b ≤ res := hmain.1 (max a b) rfl
    constructor
    · intro v hv
      cases hv
      exact le_trans (le_max_left a b) hmax
    · intro v hv
      rcases List.mem_cons.mp hv with hv | hv
      · obtain rfl : v = b := Option.some.inj hv
        exact le_trans (le_max_right a v) hmax
      · exact hmain.2 v hv

theorem jsMinList_le (l : List (Option Int)) (a : Int) (h : jsMinList l = some a) :
    ∀ v : Int, some v ∈ l → a ≤ v := by
  cases l with
  | nil => simp [jsMinList] at h
  | cons x xs =>
    intro v hv
    have hmain := foldl_jsOptMin_le xs x a h
    rcases List.mem_cons.mp hv with hv | hv
    · exact hmain.1 v hv.symm
    · exact hmain.2 v hv

theorem jsMaxList_ge (l : List (Option Int)) (b : Int) (h : jsMaxList l = some b) :
    ∀ v : Int, some v ∈ l → v ≤ b := by
  cases l with
  | nil => simp [jsMaxList] at h
  | cons x xs =>
    intro v hv
    have hmain := foldl_jsOptMax_ge xs x b h
    rcases List.mem_cons.mp hv with hv | hv
    · exact hmain.1 v hv.symm
    · exact hmain.2 v hv

theorem foldl_jsOptMin_mem :
    ∀ (xs : List (Option Int)) (a : Int), (∀ x ∈ xs, x.isSome) →
      ∃ m : Int, xs.foldl jsOptMin (some a) = some m ∧ (m = a ∨ some m ∈ xs) := by
  intro xs
  induction xs with
  | nil => intro a _; exact ⟨a, rfl, Or.inl rfl⟩
  | cons x rest ih =>
    intro a hall
    have hx : x.isSome := hall x (List.mem_cons_self x rest)
    obtain ⟨b, rfl⟩ := Option.isSome_iff_exists.mp hx
    rw [List.foldl_cons]
    obtain ⟨m, hm, hcases⟩ :=
      ih (min a b) (fun y hy => hall y (List.mem_cons_of_mem _ hy))
    refine ⟨m, hm, ?_⟩
    rcases hcases with rfl | hmem
    · rcases min_choice a b with hab | hab
      · exact Or.inl (by omega)
      · right
        rw [hab]
        exact List.mem_cons_self _ _
    · exact Or.inr (List.mem_cons_of_mem _ hmem)

theorem foldl_jsOptMax_mem :
    ∀ (xs : List (Option Int)) (a : Int), (∀ x ∈ xs, x.isSome) →
      ∃ m : Int, xs.foldl jsOptMax (some a) = some m ∧ (m = a ∨ some m ∈ xs) := by
  intro xs
  induction xs with
  | nil => intro a _; exact ⟨a, rfl, Or.inl rfl⟩
  | cons x rest ih =>
    intro a hall
    have hx : x.isSome := hall x (List.mem_cons_self x rest)
    obtain ⟨b, rfl⟩ := Option.isSome_iff_exists.mp hx
    rw [List.foldl_cons]
    obtain ⟨m, hm, hcases⟩ :=
      ih (max a b) (fun y hy => hall y (List.mem_cons_of_mem _ hy))
    refine ⟨m, hm, ?_⟩
    rcases hcases with rfl | hmem
    · rcases max_choice a b with hab | hab
      · exact Or.inl (by omega)
      · right
        rw [hab]
        exact List.mem_cons_self _ _
    · exact Or.inr (List.mem_cons_of_mem _ hmem)

theorem jsMinList_eq_some (l : List (Option Int)) (hne : l ≠ [])
    (hall : ∀ x ∈ l, x.isSome) : ∃ a, jsMinList l = some a ∧ some a ∈ l := by
  cases l with
  | nil => exact absurd rfl hne
  | cons x xs =>
    have hx : x.isSome := hall x (List.mem_cons_self x xs)
    obtain ⟨a, rfl⟩ := Option.isSome_iff_exists.mp hx
    obtain ⟨m, hm, hcases⟩ :=
      foldl_jsOptMin_mem xs a (fun y hy => hall y (List.mem_cons_of_mem _ hy))
    refine ⟨m, hm, ?_⟩
    rcases hcases with rfl | hmem
    · exact List.mem_cons_self _ _
    · exact List.mem_cons_of_mem _ hmem

theorem jsMaxList_eq_some (l : List (Option Int)) (hne : l ≠ [])
    (hall : ∀ x ∈ l, x.isSome) : ∃ b, jsMaxList l = some b ∧ some b ∈ l := by
  cases l with
  | nil => exact absurd rfl hne
  | cons x xs =>
    have hx : x.isSome := hall x (List.mem_cons_self x xs)
    obtain ⟨a, rfl⟩ := Option.isSome_iff_exists.mp hx
    obtain ⟨m, hm, hcases⟩ :=
      foldl_jsOptMax_mem xs a (fun y hy => hall y (List.mem_cons_of_mem _ hy))
    refine ⟨m, hm, ?_⟩
    rcases hcases with rfl | hmem
    · exact List.mem_cons_self _ _
    · exact List.mem_cons_of_mem _ hmem

/-! ### Lemmas about the per-day count -/

theorem dayRoomCount_shift (d : Int) :
    ∀ (ps : List ProcPeriod) (n : Nat),
      ps.foldl (fun acc p => if coversDay p d then acc + 1 else acc) n =
        n + dayRoomCount ps d := by
  intro ps
  induction ps with
  | nil => intro n; simp [dayRoomCount]
  | cons p rest ih =>
    intro n
    unfold dayRoomCount
    rw [List.foldl_cons, List.foldl_cons]
    by_cases h : coversDay p d
    · rw [if_pos h, if_pos h, ih (n + 1), ih (0 + 1)]
      omega
    · rw [if_neg h, if_neg h, ih n, ih 0]
      omega

theorem dayRoomCount_le (ps : List ProcPeriod) (d : Int) :
    dayRoomCount ps d ≤ ps.length := by
  induction ps with
  | nil => simp [dayRoomCount]
  | cons p rest ih =>
    unfold dayRoomCount
    rw [List.foldl_cons]
    rw [dayRoomCount_shift d rest _]
    by_cases h : coversDay p d
    · rw [if_pos h]
      simp only [List.length_cons]
      omega
    · rw [if_neg h]
      simp only [List.length_cons]
      omega

/-! ### Lemmas about rounding to one decimal place -/

theorem round1_nonneg (q : ℚ) (h : 0 ≤ q) : 0 ≤ round1 q := by
  unfold round1
  have h10 : (0 : ℤ) ≤ round (q * 10) := by
    rw [round_eq]
    apply Int.le_floor.mpr
    push_cast
    linarith
  apply div_nonneg _ (by norm_num : (0:ℚ) ≤ 10)
  exact_mod_cast h10

theorem round1_le_hundred (q : ℚ) (h : q ≤ 100) : round1 q ≤ 100 := by
  unfold round1
  have h10 : round (q * 10) ≤ (1000 : ℤ) := by
    rw [round_eq]
    have hlt : ⌊q * 10 + 1 / 2⌋ < 1001 := by
      rw [Int.floor_lt]
      push_cast
      linarith
    omega
  rw [div_le_iff₀ (by norm_num : (0:ℚ) < 10)]
  calc ((round (q * 10) : ℤ) : ℚ) ≤ 1000 := by exact_mod_cast h10
    _ = 100 * 10 := by norm_num

/-! ### Bridging lemmas -/

theorem optLe_cases (a b : Option Int) (h : optLe a b = true) :
    ∃ x y : Int, a = some x ∧ b = some y ∧ x ≤ y := by
  cases a with
  | none => simp [optLe] at h
  | some x =>
    cases b with
    | none => simp [optLe] at h
    | some y =>
      refine ⟨x, y, rfl, rfl, ?_⟩
      simpa [optLe] using h

theorem timelineCounts_eq_consec (periods : List Period) (a b : Int)
    (hmin : minDateOf periods = some a) (hmax : maxDateOf periods = some b) :
    timelineCounts periods =
      consecTimeline a (b + 1 - a).toNat (dayRoomCount (processedPeriods periods)) := by
  unfold timelineCounts timelineOf
  rw [hmin, hmax]
  unfold mkTimeline consecTimeline
  rw [List.map_map]
  rfl

theorem mkRow_roomCount (T : Int) (kv : Nat × ℚ) : (mkRow T kv).roomCount = kv.1 := rfl

theorem mkRow_weeks (T : Int) (kv : Nat × ℚ) :
    (mkRow T kv).weeksInDisrepair = round1 kv.2 := rfl

theorem mkRow_pct (T : Int) (kv : Nat × ℚ) :
    (mkRow T kv).percentageOfProperty = round1 ((kv.1 : ℚ) / (T : ℚ) * 100) := rfl

theorem filter_map_mkRow (T : Int) (c : Nat) :
    ∀ l : List (Nat × ℚ),
      ((l.map (mkRow T)).filter (fun r => r.roomCount = c)) =
        (l.filter (fun kv => kv.1 = c)).map (mkRow T) := by
  intro l
  induction l with
  | nil => rfl
  | cons kv rest ih =>
    simp only [List.map_cons, List.filter_cons, mkRow_roomCount]
    by_cases h : kv.1 = c
    · simp [h, ih]
    · simp [h, ih]

theorem filter_key_length_le_one :
    ∀ (t : List (Nat × ℚ)) (c : Nat), (keysOf t).Nodup →
      (t.filter (fun kv => kv.1 = c)).length ≤ 1 := by
  intro t
  induction t with
  | nil => intro c _; simp
  | cons kv rest ih =>
    intro c hnd
    rw [keysOf_cons, List.nodup_cons] at hnd
    by_cases h : kv.1 = c
    · have hnone : rest.filter (fun x => x.1 = c) = [] := by
        rw [List.filter_eq_nil_iff]
        intro x hx
        simp only [decide_eq_true_eq]
        intro hh
        apply hnd.1
        have hmm : x.1 ∈ keysOf rest := List.mem_map_of_mem Prod.fst hx
        rw [hh, ← h] at hmm
        exact hmm
      simp [List.filter_cons, h, hnone]
    · rw [show ((kv :: rest).filter (fun x => x.1 = c)) = rest.filter (fun x => x.1 = c)
        from by simp [List.filter_cons, h]]
      exact ih c hnd.2

theorem mem_calculateDisrepairOverlap (periods : List Period) (tr : Option Int)
    (r : ResultRow) :
    r ∈ calculateDisrepairOverlap periods tr ↔
      ∃ kv ∈ accumTotals (segmentsOf periods),
        r = mkRow (calcTotalRooms periods tr) kv := by
  unfold calculateDisrepairOverlap
  rw [(sortRows_perm _).mem_iff]
  constructor
  · intro h
    obtain ⟨kv, hkv, heq⟩ := List.mem_map.mp h
    exact ⟨kv, hkv, heq.symm⟩
  · rintro ⟨kv, hkv, rfl⟩
    exact List.mem_map_of_mem _ hkv

theorem pct_formula (periods : List Period) (tr : Option Int) :
    ∀ r ∈ calculateDisrepairOverlap periods tr,
      r.percentageOfProperty =
        round1 ((r.roomCount : ℚ) / ((calcTotalRooms periods tr : Int) : ℚ) * 100) := by
  intro r hr
  obtain ⟨kv, hkv, rfl⟩ := (mem_calculateDisrepairOverlap periods tr r).mp hr
  rw [mkRow_pct, mkRow_roomCount]

theorem dayRoomCount_cons (x : ProcPeriod) (xs : List ProcPeriod) (d : Int) :
    dayRoomCount (x :: xs) d = (if coversDay x d then 1 else 0) + dayRoomCount xs d := by
  unfold dayRoomCount
  rw [List.foldl_cons]
  by_cases h : coversDay x d
  · rw [if_pos h, dayRoomCount_shift, dayRoomCount_shift]
    omega
  · rw [if_neg h, dayRoomCount_shift]
    omega

theorem dayRoomCount_erase :
    ∀ (l : List Period) (p : Period), p ∈ l →
      (∀ d : Int, coversDay (processPeriod p) d = false) →
      ∀ d : Int, dayRoomCount (processedPeriods l) d =
        dayRoomCount (processedPeriods (l.erase p)) d := by
  intro l
  induction l with
  | nil => intro p hp; simp at hp
  | cons q rest ih =>
    intro p hp hz d
    by_cases hqp : q = p
    · subst hqp
      rw [List.erase_cons_head]
      rw [show processedPeriods (q :: rest) = processPeriod q :: processedPeriods rest
        from rfl]
      rw [dayRoomCount_cons]
      simp [hz d]
    · rw [List.erase_cons_tail (by simpa using hqp)]
      rw [show processedPeriods (q :: rest) = processPeriod q :: processedPeriods rest
        from rfl]
      rw [show processedPeriods (q :: rest.erase p) =
        processPeriod q :: processedPeriods (rest.erase p) from rfl]
      rw [dayRoomCount_cons, dayRoomCount_cons]
      have hp2 : p ∈ rest := by
        rcases List.mem_cons.mp hp with h | h
        · exact absurd h.symm hqp
        · exact h
      rw [ih p hp2 hz d]

/-! ### Claim theorems -/

/-- Claim C1: for every non-empty list of periods whose normalized start dates
are not after their end dates, the segments produced by the
group-consecutive-equal-count step partition the inclusive range
`[minDate, maxDate]` with no gaps and no overlaps: the segment day spans sum
to `(maxDate - minDate in days) + 1` and every day of the range belongs to
exactly one segment. -/
theorem claim1_segments_partition (periods : List Period)
    (hne : periods ≠ [])
    (hord : ∀ p ∈ processedPeriods periods, optLe p.startDate p.endDate = true) :
    ∃ a b : Int, minDateOf periods = some a ∧ maxDateOf periods = some b ∧ a ≤ b ∧
      sumSpans (segmentsOf periods) = b - a + 1 ∧
      ∀ d : Int, a ≤ d → d ≤ b →
        (segmentsOf periods).countP (fun s => segCovers s d) = 1 := by
  have hpne : processedPeriods periods ≠ [] := by
    unfold processedPeriods
    simpa using hne
  have hsne : (processedPeriods periods).map (fun p => p.startDate) ≠ [] := by
    simpa using hpne
  have hene : (processedPeriods periods).map (fun p => p.endDate) ≠ [] := by
    simpa using hpne
  have hssome : ∀ x ∈ (processedPeriods periods).map (fun p => p.startDate), x.isSome := by
    intro x hx
    obtain ⟨p, hp, rfl⟩ := List.mem_map.mp hx
    obtain ⟨u, v, hu, _, _⟩ := optLe_cases _ _ (hord p hp)
    rw [hu]
    rfl
  have hesome : ∀ x ∈ (processedPeriods periods).map (fun p => p.endDate), x.isSome := by
    intro x hx
    obtain ⟨p, hp, rfl⟩ := List.mem_map.mp hx
    obtain ⟨u, v, _, hv, _⟩ := optLe_cases _ _ (hord p hp)
    rw [hv]
    rfl
  obtain ⟨a, hmin, hamem⟩ := jsMinList_eq_some _ hsne hssome
  obtain ⟨b, hmax, hbmem⟩ := jsMaxList_eq_some _ hene hesome
  have hab : a ≤ b := by
    obtain ⟨p, hp, hpa⟩ := List.mem_map.mp hamem
    obtain ⟨u, v, hu, hv, huv⟩ := optLe_cases _ _ (hord p hp)
    have hua : u = a := by
      rw [hu] at hpa
      exact Option.some.inj hpa
    have hvb : v ≤ b := by
      apply jsMaxList_ge _ b hmax
      rw [← hv]
      exact List.mem_map_of_mem (fun p => p.endDate) hp
    omega
  have hn : 0 < (b + 1 - a).toNat := by omega
  have hcov : coversRange (segmentsOf periods) a b := by
    unfold segmentsOf
    rw [timelineCounts_eq_consec periods a b hmin hmax]
    have h0 := rle_consec_covers (dayRoomCount (processedPeriods periods)) a
      ((b + 1 - a).toNat) hn
    have hab2 : a + (((b + 1 - a).toNat : Nat) : Int) - 1 = b := by omega
    rwa [hab2] at h0
  exact ⟨a, b, hmin, hmax, hab, coversRange_sumSpans _ a b hcov,
    fun d h1 h2 => coversRange_countP_one _ a b hcov d h1 h2⟩

/-- Witness for C1: the partition property instantiated at a concrete
two-period overlapping request. -/
theorem claim1_witness :
    (wPeriodsA ≠ [] ∧
      ∀ p ∈ processedPeriods wPeriodsA, optLe p.startDate p.endDate = true) ∧
    (∃ a b : Int, minDateOf wPeriodsA = some a ∧ maxDateOf wPeriodsA = some b ∧
      a ≤ b ∧ sumSpans (segmentsOf wPeriodsA) = b - a + 1 ∧
      ∀ d : Int, a ≤ d → d ≤ b →
        (segmentsOf wPeriodsA).countP (fun s => segCovers s d) = 1) :=
  ⟨⟨by decide, by decide⟩, claim1_segments_partition wPeriodsA (by decide) (by decide)⟩

/-- Claim C2: for each positive room count observed across the segments, the
output contains exactly one row for it, whose `weeksInDisrepair` is the exact
sum of the day spans over 7 of all segments at that count, rounded to one
decimal place only after the accumulation, and whose `percentageOfProperty`
is `(roomCount / totalRooms) * 100` rounded to one decimal place. -/
theorem claim2_row_values (periods : List Period) (tr : Option Int) (c : Nat)
    (hc : 0 < c) (hmem : c ∈ (segmentsOf periods).map (fun s => s.roomCount)) :
    (calculateDisrepairOverlap periods tr).filter (fun r => r.roomCount = c) =
      [⟨c, round1 (sumWeeksAt c (segmentsOf periods)),
        round1 ((c : ℚ) / ((calcTotalRooms periods tr : Int) : ℚ) * 100)⟩] := by
  have hkey : c ∈ keysOf (accumTotals (segmentsOf periods)) := by
    rw [mem_keysOf_accumTotals]
    obtain ⟨s, hs, hsc⟩ := List.mem_map.mp hmem
    exact ⟨hc, s, hs, hsc⟩
  have hnd := keysOf_accumTotals_nodup (segmentsOf periods)
  have hfil := filter_key_eq (accumTotals (segmentsOf periods)) c hnd hkey
  unfold calculateDisrepairOverlap
  have hperm := (sortRows_perm ((accumTotals (segmentsOf periods)).map
    (mkRow (calcTotalRooms periods tr)))).filter (fun r => decide (r.roomCount = c))
  rw [filter_map_mkRow, hfil] at hperm
  rw [totalsVal_accumTotals _ c hc] at hperm
  rw [List.map_cons, List.map_nil] at hperm
  exact List.perm_singleton.mp hperm

/-- Witness for C2: the row-value property instantiated at the concrete
two-period request, at room count 1. -/
theorem claim2_witness :
    (0 < 1 ∧ 1 ∈ (segmentsOf wPeriodsA).map (fun s => s.roomCount)) ∧
    (calculateDisrepairOverlap wPeriodsA (some 2)).filter (fun r => r.roomCount = 1) =
      [⟨1, round1 (sumWeeksAt 1 (segmentsOf wPeriodsA)),
        round1 ((1 : ℚ) / ((calcTotalRooms wPeriodsA (some 2) : Int) : ℚ) * 100)⟩] :=
  ⟨⟨by decide, by decide⟩, claim2_row_values wPeriodsA (some 2) 1 (by decide) (by decide)⟩

/-- Claim C3: for every non-empty input the result list has exactly one row
per distinct positive room count observed across the segments, contains no
row for zero-count segments, and is sorted ascending by `roomCount`. -/
theorem claim3_rows_shape (periods : List Period) (tr : Option Int)
    (_hne : periods ≠ []) :
    (∀ r ∈ calculateDisrepairOverlap periods tr, 0 < r.roomCount) ∧
    (∀ c : Nat, 0 < c →
      ((∃ s ∈ segmentsOf periods, s.roomCount = c) ↔
        ∃ r ∈ calculateDisrepairOverlap periods tr, r.roomCount = c)) ∧
    (∀ c : Nat,
      ((calculateDisrepairOverlap periods tr).filter
        (fun r => r.roomCount = c)).length ≤ 1) ∧
    List.Pairwise rowLe (calculateDisrepairOverlap periods tr) := by
  refine ⟨?_, ?_, ?_, ?_⟩
  · intro r hr
    obtain ⟨kv, hkv, rfl⟩ := (mem_calculateDisrepairOverlap periods tr r).mp hr
    have hkey : kv.1 ∈ keysOf (accumTotals (segmentsOf periods)) :=
      List.mem_map_of_mem Prod.fst hkv
    rw [mem_keysOf_accumTotals] at hkey
    exact hkey.1
  · intro c hc
    constructor
    · rintro ⟨s, hs, hsc⟩
      have hkey : c ∈ keysOf (accumTotals (segmentsOf periods)) := by
        rw [mem_keysOf_accumTotals]
        exact ⟨hc, s, hs, hsc⟩
      obtain ⟨kv, hkv, hkvc⟩ := List.mem_map.mp hkey
      refine ⟨mkRow (calcTotalRooms periods tr) kv, ?_, hkvc⟩
      exact (mem_calculateDisrepairOverlap periods tr _).mpr ⟨kv, hkv, rfl⟩
    · rintro ⟨r, hr, hrc⟩
      obtain ⟨kv, hkv, rfl⟩ := (mem_calculateDisrepairOverlap periods tr r).mp hr
      have hkey : kv.1 ∈ keysOf (accumTotals (segmentsOf periods)) :=
        List.mem_map_of_mem Prod.fst hkv
      rw [mem_keysOf_accumTotals] at hkey
      obtain ⟨_, s, hs, hsc⟩ := hkey
      rw [mkRow_roomCount] at hrc
      exact ⟨s, hs, by rw [hsc, hrc]⟩
  · intro c
    unfold calculateDisrepairOverlap
    have hperm := (sortRows_perm ((accumTotals (segmentsOf periods)).map
      (mkRow (calcTotalRooms periods tr)))).filter (fun r => decide (r.roomCount = c))
    rw [hperm.length_eq]
    rw [filter_map_mkRow, List.length_map]
    exact filter_key_length_le_one _ c (keysOf_accumTotals_nodup _)
  · unfold calculateDisrepairOverlap
    exact sortRows_pairwise _

/-- Witness for C3 at the concrete two-period request. -/
theorem claim3_witness :
    (wPeriodsA ≠ []) ∧
    ((∀ r ∈ calculateDisrepairOverlap wPeriodsA (some 2), 0 < r.roomCount) ∧
    (∀ c : Nat, 0 < c →
      ((∃ s ∈ segmentsOf wPeriodsA, s.roomCount = c) ↔
        ∃ r ∈ calculateDisrepairOverlap wPeriodsA (some 2), r.roomCount = c)) ∧
    (∀ c : Nat,
      ((calculateDisrepairOverlap wPeriodsA (some 2)).filter
        (fun r => r.roomCount = c)).length ≤ 1) ∧
    List.Pairwise rowLe (calculateDisrepairOverlap wPeriodsA (some 2))) :=
  ⟨by decide, claim3_rows_shape wPeriodsA (some 2) (by decide)⟩

/-- Claim C10: for the empty period list and any positive total-rooms
argument, the calculator returns the empty list rather than failing: the
empty min and max produce an invalid range, the day loop runs zero times and
no rows are emitted. -/
theorem claim10_empty_input (t : Int) (_ht : 0 < t) :
    calculateDisrepairOverlap [] (some t) = [] := rfl

/-- Witness for C10 at `totalRooms = 3`. -/
theorem claim10_witness :
    (0 : Int) < 3 ∧ calculateDisrepairOverlap [] (some 3) = [] :=
  ⟨by decide, claim10_empty_input 3 (by decide)⟩

/-- Counterexample to claim C4 as stated: with one period, no room list and
`totalRooms = 2.5` supplied, the claim predicts the denominator 2.5 and hence
a percentage of `round1 (1 / 2.5 * 100) = 40`, but the handler truncates via
`parseInt` and the code produces 50. -/
theorem claim4_counterexample :
    ((calculateDisrepairOverlap [⟨"A", "01/01/2025", "07/01/2025"⟩]
        (some (handlerResolveTotalRooms [⟨"A", "01/01/2025", "07/01/2025"⟩]
          (some ((5 : ℚ) / 2)) none))).map (fun r => r.percentageOfProperty) =
      [(50 : ℚ)]) ∧
    round1 ((1 : ℚ) / ((5 : ℚ) / 2) * 100) = 40 ∧ (50 : ℚ) ≠ 40 := by
  have hresolve : handlerResolveTotalRooms [⟨"A", "01/01/2025", "07/01/2025"⟩]
      (some ((5 : ℚ) / 2)) none = 2 := by
    show (if (0:ℚ) < 5 / 2 then jsParseIntPos ((5 : ℚ) / 2)
      else (uniqueRoomCount [⟨"A", "01/01/2025", "07/01/2025"⟩] : Int)) = 2
    rw [if_pos (by norm_num : (0:ℚ) < 5 / 2)]
    unfold jsParseIntPos
    rw [if_pos (by norm_num)]
    norm_num
  refine ⟨?_, by norm_num [round1, round_eq], by norm_num⟩
  rw [hresolve]
  have hseg : segmentsOf [⟨"A", "01/01/2025", "07/01/2025"⟩] =
      [⟨20089, 20095, 1⟩] := by decide
  have htr : calcTotalRooms [⟨"A", "01/01/2025", "07/01/2025"⟩] (some 2) = 2 := by decide
  unfold calculateDisrepairOverlap
  rw [hseg, htr]
  rw [show accumTotals [(⟨20089, 20095, 1⟩ : Segment)] =
    [(1, segWeeks ⟨20089, 20095, 1⟩)] from rfl]
  rw [show sortRows ([(1, segWeeks (⟨20089, 20095, 1⟩ : Segment))].map (mkRow 2)) =
    [mkRow 2 (1, segWeeks ⟨20089, 20095, 1⟩)] from rfl]
  rw [List.map_cons, List.map_nil, mkRow_pct]
  norm_num [round1, round_eq]

/-- Claim C4 as amended: the denominator actually used for every
`percentageOfProperty` is: the room list's length when a room list is
supplied and non-empty; the distinct-room-name count when a room list is
supplied but empty (regardless of `totalRooms`); else `⌊totalRooms⌋` when
that truncation is positive; else the distinct-room-name count. -/
theorem claim4_total_rooms_precedence (periods : List Period) (tq : Option ℚ)
    (rooms : Option (List String)) :
    calcTotalRooms periods (some (handlerResolveTotalRooms periods tq rooms)) =
      amendedTotalRooms periods tq rooms ∧
    (calculateDisrepairOverlap periods
        (some (handlerResolveTotalRooms periods tq rooms))).map
        (fun r => r.percentageOfProperty) =
      (calculateDisrepairOverlap periods
        (some (handlerResolveTotalRooms periods tq rooms))).map
        (fun r => round1 ((r.roomCount : ℚ) /
          ((amendedTotalRooms periods tq rooms : Int) : ℚ) * 100)) := by
  have hres : calcTotalRooms periods (some (handlerResolveTotalRooms periods tq rooms)) =
      amendedTotalRooms periods tq rooms := by
    cases rooms with
    | some rs =>
      show (if (rs.length : Int) ≤ 0 then (uniqueRoomCount periods : Int)
          else (rs.length : Int)) =
        (if rs.length = 0 then (uniqueRoomCount periods : Int) else (rs.length : Int))
      by_cases h : rs.length = 0
      · rw [if_pos (by omega), if_pos h]
      · rw [if_neg (by omega), if_neg h]
    | none =>
      cases tq with
      | none =>
        show (if (uniqueRoomCount periods : Int) ≤ 0 then (uniqueRoomCount periods : Int)
          else (uniqueRoomCount periods : Int)) = (uniqueRoomCount periods : Int)
        rw [ite_self]
      | some q =>
        show (if (if 0 < q then jsParseIntPos q else (uniqueRoomCount periods : Int)) ≤ 0
            then (uniqueRoomCount periods : Int)
            else (if 0 < q then jsParseIntPos q else (uniqueRoomCount periods : Int))) =
          (if 0 < q ∧ 0 < jsParseIntPos q then jsParseIntPos q
            else (uniqueRoomCount periods : Int))
        by_cases hq : 0 < q
        · rw [if_pos hq]
          by_cases hf : 0 < jsParseIntPos q
          · rw [if_neg (by omega), if_pos ⟨hq, hf⟩]
          · rw [if_pos (by omega), if_neg (fun h => hf h.2)]
        · rw [if_neg hq, ite_self, if_neg (fun h => hq h.1)]
  refine ⟨hres, ?_⟩
  apply List.map_congr_left
  intro r hr
  rw [pct_formula periods _ r hr, hres]

/-- Claim C5: the single-interval request of the spec, one room in disrepair
for exactly one week, yields exactly one row with `roomCount = 1`,
`weeksInDisrepair = 1.0` and `percentageOfProperty = 100.0`. -/
theorem claim5_single_interval :
    calculateDisrepairOverlap [⟨"A", "01/01/2025", "07/01/2025"⟩] (some 1) =
      [⟨1, 1, 100⟩] := by
  have hseg : segmentsOf [⟨"A", "01/01/2025", "07/01/2025"⟩] =
      [⟨20089, 20095, 1⟩] := by decide
  have htr : calcTotalRooms [⟨"A", "01/01/2025", "07/01/2025"⟩] (some 1) = 1 := by decide
  unfold calculateDisrepairOverlap
  rw [hseg, htr]
  rw [show accumTotals [(⟨20089, 20095, 1⟩ : Segment)] =
    [(1, segWeeks ⟨20089, 20095, 1⟩)] from rfl]
  rw [show sortRows ([(1, segWeeks (⟨20089, 20095, 1⟩ : Segment))].map (mkRow 1)) =
    [mkRow 1 (1, segWeeks ⟨20089, 20095, 1⟩)] from rfl]
  have hw : round1 (segWeeks ⟨20089, 20095, 1⟩) = 1 := by
    norm_num [segWeeks, round1, round_eq]
  have hp : round1 ((1 : ℚ) / ((1 : Int) : ℚ) * 100) = 100 := by
    norm_num [round1, round_eq]
  rw [show mkRow 1 (1, segWeeks ⟨20089, 20095, 1⟩) =
    ⟨1, round1 (segWeeks ⟨20089, 20095, 1⟩), round1 ((1 : ℚ) / ((1 : Int) : ℚ) * 100)⟩
    from rfl, hw, hp]

/-- Claim C6: the date-normalization helper returns `YYYY-MM-DD` strings
unchanged; otherwise a string splitting on `/` into exactly three parts is
rebuilt as year-month-day with day and month left-padded to two digits; any
other string is returned unmodified. -/
theorem claim6_date_normalization (s : String) :
    (isIsoDateFormat s.data = true → formatDateForProcessing s = s) ∧
    (isIsoDateFormat s.data = false →
      (∀ d m y : List Char, splitOnChar '/' [] s.data = [d, m, y] →
        formatDateForProcessing s =
          String.mk (y ++ '-' :: (padStart2 m ++ '-' :: padStart2 d))) ∧
      ((splitOnChar '/' [] s.data).length ≠ 3 → formatDateForProcessing s = s)) := by
  refine ⟨?_, ?_⟩
  · intro h
    unfold formatDateForProcessing
    rw [if_pos h]
  · intro h
    have hni : ¬isIsoDateFormat s.data = true := by
      rw [h]
      exact Bool.false_ne_true
    refine ⟨?_, ?_⟩
    · intro d m y hsplit
      unfold formatDateForProcessing
      rw [if_neg hni, hsplit]
    · intro hlen
      unfold formatDateForProcessing
      rw [if_neg hni]
      cases hsp : splitOnChar '/' [] s.data with
      | nil => rfl
      | cons a1 t1 =>
        cases t1 with
        | nil => rfl
        | cons a2 t2 =>
          cases t2 with
          | nil => rfl
          | cons a3 t3 =>
            cases t3 with
            | nil => exact absurd (by rw [hsp]; rfl) hlen
            | cons a4 t4 => rfl

/-- Witness for C6: the day/month/year form `1/2/2025` is rewritten to
`2025-02-01` with both fields padded. -/
theorem claim6_witness :
    (isIsoDateFormat "1/2/2025".data = false ∧
      splitOnChar '/' [] "1/2/2025".data = [['1'], ['2'], ['2', '0', '2', '5']]) ∧
    formatDateForProcessing "1/2/2025" = "2025-02-01" := by
  refine ⟨⟨by decide, by decide⟩, ?_⟩
  rw [((claim6_date_normalization "1/2/2025").2 (by decide)).1 ['1'] ['2']
    ['2', '0', '2', '5'] (by decide)]
  decide

/-- Claim C7: every output row's `roomCount` is a positive integer not
exceeding the number of input periods, and its `percentageOfProperty` lies in
`[0, 100]` whenever its `roomCount` does not exceed the resolved total-rooms
value. -/
theorem claim7_bounds (periods : List Period) (tr : Option Int)
    (_hne : periods ≠ [])
    (_hparse : ∀ p ∈ processedPeriods periods, p.startDate.isSome ∧ p.endDate.isSome) :
    ∀ r ∈ calculateDisrepairOverlap periods tr,
      (0 < r.roomCount ∧ r.roomCount ≤ periods.length) ∧
      ((r.roomCount : Int) ≤ calcTotalRooms periods tr →
        0 ≤ r.percentageOfProperty ∧ r.percentageOfProperty ≤ 100) := by
  intro r hr
  obtain ⟨kv, hkv, rfl⟩ := (mem_calculateDisrepairOverlap periods tr r).mp hr
  have hkey : kv.1 ∈ keysOf (accumTotals (segmentsOf periods)) :=
    List.mem_map_of_mem Prod.fst hkv
  rw [mem_keysOf_accumTotals] at hkey
  obtain ⟨hpos, s, hs, hsc⟩ := hkey
  have hcnt : kv.1 ≤ periods.length := by
    have hall : ∀ x ∈ timelineCounts periods, x.2 ≤ (processedPeriods periods).length := by
      intro x hx
      obtain ⟨d, _, rfl⟩ := List.mem_map.mp hx
      exact dayRoomCount_le _ _
    have hcp := rle_counts_prop (fun c => c ≤ (processedPeriods periods).length)
      (timelineCounts periods) hall s hs
    rw [hsc] at hcp
    simpa [processedPeriods] using hcp
  refine ⟨⟨hpos, hcnt⟩, ?_⟩
  intro hle
  have hle2 : (kv.1 : Int) ≤ calcTotalRooms periods tr := hle
  have hT1 : (1 : Int) ≤ calcTotalRooms periods tr := by
    have h1 : (1 : Int) ≤ (kv.1 : Int) := by exact_mod_cast hpos
    omega
  have hTpos : (0 : ℚ) < ((calcTotalRooms periods tr : Int) : ℚ) := by
    exact_mod_cast lt_of_lt_of_le Int.zero_lt_one hT1
  have hdiv1 : ((kv.1 : Nat) : ℚ) / ((calcTotalRooms periods tr : Int) : ℚ) ≤ 1 := by
    rw [div_le_one hTpos]
    exact_mod_cast hle2
  have harg1 : (0 : ℚ) ≤ (kv.1 : ℚ) / ((calcTotalRooms periods tr : Int) : ℚ) * 100 := by
    positivity
  have harg2 : (kv.1 : ℚ) / ((calcTotalRooms periods tr : Int) : ℚ) * 100 ≤ 100 := by
    linarith [hdiv1]
  rw [mkRow_pct]
  exact ⟨round1_nonneg _ harg1, round1_le_hundred _ harg2⟩

/-- Witness for C7 at the concrete two-period request with `totalRooms = 2`. -/
theorem claim7_witness :
    (wPeriodsA ≠ [] ∧
      ∀ p ∈ processedPeriods wPeriodsA, p.startDate.isSome ∧ p.endDate.isSome) ∧
    (∀ r ∈ calculateDisrepairOverlap wPeriodsA (some 2),
      (0 < r.roomCount ∧ r.roomCount ≤ wPeriodsA.length) ∧
      ((r.roomCount : Int) ≤ calcTotalRooms wPeriodsA (some 2) →
        0 ≤ r.percentageOfProperty ∧ r.percentageOfProperty ≤ 100)) :=
  ⟨⟨by decide, by decide⟩, claim7_bounds wPeriodsA (some 2) (by decide) (by decide)⟩

/-- Claim C8: an interval whose normalized start is strictly after its
normalized end is not rejected: it covers no day at all (so contributes zero
to every day count and can be removed from the counting pass without change),
while its start and end still take part in the `minDate`/`maxDate`
computation, which can widen the timeline with zero-count days. -/
theorem claim8_inverted_interval (periods : List Period) (p : Period)
    (hp : p ∈ periods) (s e : Int)
    (hs : (processPeriod p).startDate = some s)
    (he : (processPeriod p).endDate = some e) (hinv : e < s)
    (hparse : ∀ q ∈ processedPeriods periods, q.startDate.isSome ∧ q.endDate.isSome) :
    (∀ d : Int, coversDay (processPeriod p) d = false) ∧
    (∀ d : Int, dayRoomCount (processedPeriods periods) d =
      dayRoomCount (processedPeriods (periods.erase p)) d) ∧
    (∃ a b : Int, minDateOf periods = some a ∧ maxDateOf periods = some b ∧
      a ≤ s ∧ e ≤ b) := by
  have hzero : ∀ d : Int, coversDay (processPeriod p) d = false := by
    intro d
    unfold coversDay
    rw [hs, he]
    show (decide (s ≤ d) && decide (d ≤ e)) = false
    by_cases h1 : s ≤ d
    · have h2 : ¬d ≤ e := by omega
      simp [h2]
    · simp [h1]
  have hne : periods ≠ [] := by
    intro h
    rw [h] at hp
    exact absurd hp (List.not_mem_nil p)
  have hpne : processedPeriods periods ≠ [] := by
    unfold processedPeriods
    simpa using hne
  have hsne : (processedPeriods periods).map (fun q => q.startDate) ≠ [] := by
    simpa using hpne
  have hene : (processedPeriods periods).map (fun q => q.endDate) ≠ [] := by
    simpa using hpne
  have hssome : ∀ x ∈ (processedPeriods periods).map (fun q => q.startDate), x.isSome := by
    intro x hx
    obtain ⟨q, hq, rfl⟩ := List.mem_map.mp hx
    exact (hparse q hq).1
  have hesome : ∀ x ∈ (processedPeriods periods).map (fun q => q.endDate), x.isSome := by
    intro x hx
    obtain ⟨q, hq, rfl⟩ := List.mem_map.mp hx
    exact (hparse q hq).2
  obtain ⟨a, hmin, _⟩ := jsMinList_eq_some _ hsne hssome
  obtain ⟨b, hmax, _⟩ := jsMaxList_eq_some _ hene hesome
  have hmemS : some s ∈ (processedPeriods periods).map (fun q => q.startDate) := by
    rw [← hs]
    exact List.mem_map_of_mem _ (List.mem_map_of_mem processPeriod hp)
  have hmemE : some e ∈ (processedPeriods periods).map (fun q => q.endDate) := by
    rw [← he]
    exact List.mem_map_of_mem _ (List.mem_map_of_mem processPeriod hp)
  exact ⟨hzero, dayRoomCount_erase periods p hp hzero,
    a, b, hmin, hmax, jsMinList_le _ a hmin s hmemS, jsMaxList_ge _ b hmax e hmemE⟩

/-- Witness for C8: the inverted interval of room `A` (start 2024-12-01, end
2024-11-01) in a concrete two-period request. -/
theorem claim8_witness :
    ((⟨"A", "01/12/2024", "01/11/2024"⟩ : Period) ∈ wPeriodsInv ∧
      (processPeriod ⟨"A", "01/12/2024", "01/11/2024"⟩).startDate = some 20058 ∧
      (processPeriod ⟨"A", "01/12/2024", "01/11/2024"⟩).endDate = some 20028 ∧
      (20028 : Int) < 20058 ∧
      ∀ q ∈ processedPeriods wPeriodsInv, q.startDate.isSome ∧ q.endDate.isSome) ∧
    ((∀ d : Int, coversDay (processPeriod ⟨"A", "01/12/2024", "01/11/2024"⟩) d = false) ∧
    (∀ d : Int, dayRoomCount (processedPeriods wPeriodsInv) d =
      dayRoomCount (processedPeriods
        (wPeriodsInv.erase ⟨"A", "01/12/2024", "01/11/2024"⟩)) d) ∧
    (∃ a b : Int, minDateOf wPeriodsInv = some a ∧ maxDateOf wPeriodsInv = some b ∧
      a ≤ 20058 ∧ (20028 : Int) ≤ b)) :=
  ⟨⟨by decide, by decide, by decide, by decide, by decide⟩,
    claim8_inverted_interval wPeriodsInv ⟨"A", "01/12/2024", "01/11/2024"⟩ (by decide)
      20058 20028 (by decide) (by decide) (by decide) (by decide)⟩

/-- Claim C9: a body with `periods` missing or empty, or containing a period
that lacks `roomName`, `startDate` or `endDate`, receives a 400 response with
an error message; the calculator is never reached (the response carries no
calculator output). -/
theorem claim9_validation (body : RequestBody)
    (h : body.periods = none ∨ body.periods = some [] ∨
      (∃ ps, body.periods = some ps ∧ ∃ p ∈ ps,
        p.roomName = none ∨ p.startDate = none ∨ p.endDate = none)) :
    ∃ msg, handler body = HandlerResponse.badRequest msg := by
  rcases h with h | h | ⟨ps, hps, p, hp, hbad⟩
  · exact ⟨"Invalid input - Disrepair periods required", by unfold handler; rw [h]⟩
  · refine ⟨"Invalid input - Disrepair periods required", ?_⟩
    unfold handler
    rw [h]
    rfl
  · refine ⟨"Invalid input - Each period must have roomName, startDate, and endDate", ?_⟩
    unfold handler
    rw [hps]
    have hvalid : ps.all rawValid = false := by
      rw [List.all_eq_false]
      refine ⟨p, hp, ?_⟩
      unfold rawValid truthyStr
      rcases hbad with hb | hb | hb <;> rw [hb] <;> simp
    have hnemp : ps.isEmpty = false := by
      cases ps with
      | nil => exact absurd hp (List.not_mem_nil p)
      | cons x xs => rfl
    simp [hnemp, hvalid]

/-- Witness for C9 at the concrete body whose only period lacks a room name. -/
theorem claim9_witness :
    (wBadBody.periods = none ∨ wBadBody.periods = some [] ∨
      (∃ ps, wBadBody.periods = some ps ∧ ∃ p ∈ ps,
        p.roomName = none ∨ p.startDate = none ∨ p.endDate = none)) ∧
    (∃ msg, handler wBadBody = HandlerResponse.badRequest msg) :=
  ⟨Or.inr (Or.inr ⟨[⟨none, some "01/01/2025", some "02/01/2025"⟩], rfl,
      ⟨none, some "01/01/2025", some "02/01/2025"⟩,
      List.mem_singleton.mpr rfl, Or.inl rfl⟩),
    claim9_validation wBadBody
      (Or.inr (Or.inr ⟨[⟨none, some "01/01/2025", some "02/01/2025"⟩], rfl,
        ⟨none, some "01/01/2025", some "02/01/2025"⟩,
        List.mem_singleton.mpr rfl, Or.inl rfl⟩))⟩

end Disrepair
